import Mathlib

/-!
Verification of the CSV ingestion-and-aggregation core of the
Gem5-simpleSSD-SPDK-simulation repository (scripts/plot_phase1.py,
scripts/plot_multicore.py, scripts/plot_bdev.py).

Python floats are modelled as exact rationals (`ℚ`): every numeric literal
appearing in the benchmark pipeline is decimal, and the properties under
study (sum conservation, arithmetic means, percentages) are stated over the
exact arithmetic the code intends.  Python strings are modelled as Lean
`String` / `List Char`.  Python dicts (insertion-ordered) are modelled as
association lists updated in place.
-/

namespace Gem5Spdk

/-- Model of the ASCII part of the whitespace class used by Python's
`str.strip()` and by the regex class `\s` (space, tab, LF, CR, VT, FF). -/
def isPyWs (c : Char) : Bool :=
  c = ' ' || c = '\t' || c = '\n' || c = '\r' || c = Char.ofNat 11 || c = Char.ofNat 12

/-- Model of Python `str.strip()` on a character list. -/
def pyStrip (cs : List Char) : List Char :=
  ((cs.dropWhile isPyWs).reverse.dropWhile isPyWs).reverse

/-- Model of Python `str.split(sep)` for a one-character separator. -/
def pySplit (cs : List Char) (sep : Char) : List (List Char) :=
  match cs with
  | [] => [[]]
  | c :: rest =>
    let r := pySplit rest sep
    if c = sep then [] :: r
    else
      match r with
      | f :: t => (c :: f) :: t
      | [] => [[c]]

/-- Numeric value of a digit list (most significant first), as used when a
digit string is converted by Python `int`/`float`. -/
def digitsVal (ds : List Char) : Nat :=
  ds.foldl (fun a c => a * 10 + (c.toNat - 48)) 0

/-- Model of Python `int(s)` on a string: optional surrounding whitespace,
optional sign, then one or more decimal digits. -/
def pyIntCore (cs0 : List Char) : Option Int :=
  match pyStrip cs0 with
  | [] => none
  | c :: rest =>
    if c = '+' then
      if rest.isEmpty || !rest.all Char.isDigit then none else some (digitsVal rest : Int)
    else if c = '-' then
      if rest.isEmpty || !rest.all Char.isDigit then none else some (-(digitsVal rest : Int))
    else
      if (c :: rest).all Char.isDigit then some (digitsVal (c :: rest) : Int) else none

/-- Model of Python `int(s)` (wrapper taking a `String`). -/
def pyInt? (s : String) : Option Int := pyIntCore s.data

/-- Model of Python `float(s)` restricted to finite decimal/scientific
literals, returning an exact rational.  The `inf`/`nan` spellings accepted
by Python are outside the rational model and are not produced by any input
this pipeline parses. -/
def pyFloatCore (cs0 : List Char) : Option ℚ :=
  let cs1 := pyStrip cs0
  let sign : ℚ := if cs1.head? = some '-' then -1 else 1
  let cs2 := if cs1.head? = some '-' || cs1.head? = some '+' then cs1.tail else cs1
  let ip := cs2.takeWhile Char.isDigit
  let cs3 := cs2.drop ip.length
  let fp := if cs3.head? = some '.' then cs3.tail.takeWhile Char.isDigit else []
  let cs4 := if cs3.head? = some '.' then cs3.tail.drop fp.length else cs3
  if ip.isEmpty && fp.isEmpty then none
  else
    let mant : ℚ := (digitsVal ip : ℚ) + (digitsVal fp : ℚ) / ((10 : ℚ) ^ fp.length)
    match cs4 with
    | [] => some (sign * mant)
    | e :: r =>
      if e = 'e' || e = 'E' then
        let esign : Int := if r.head? = some '-' then -1 else 1
        let r2 := if r.head? = some '-' || r.head? = some '+' then r.tail else r
        let ed := r2.takeWhile Char.isDigit
        if ed.isEmpty || !(r2.drop ed.length).isEmpty then none
        else some (sign * mant * (10 : ℚ) ^ (esign * (digitsVal ed : Int)))
      else none

/-- Model of Python `float(s)` (wrapper taking a `String`). -/
def pyFloat? (s : String) : Option ℚ := pyFloatCore s.data

/-- Insertion-ordered dictionary update, `d[k] = v` on a Python dict modelled
as an association list: an existing key is updated in place, a new key is
appended at the end. -/
def dictInsert (d : List (String × ℚ)) (k : String) (v : ℚ) : List (String × ℚ) :=
  match d with
  | [] => [(k, v)]
  | (k', v') :: rest => if k' = k then (k', v) :: rest else (k', v') :: dictInsert rest k v

/-- Dictionary lookup `d.get(k)` on the association-list model. -/
def dictGet : List (String × ℚ) → String → Option ℚ
  | [], _ => none
  | (k', v) :: rest, k => if k' = k then some v else dictGet rest k

/-! ### scripts/plot_phase1.py — Histogram Mini-Format Parser and Bucketizer -/

/-- Model of the regex match `re.match(r"^(\d+\+?):\s*([0-9eE+.-]+)$", p)`
in `parse_hist` (plot_phase1.py line 40), returning the key group and the
value group on success. -/
def histTokenRe (cs : List Char) : Option (String × String) :=
  let ds := cs.takeWhile Char.isDigit
  if ds.isEmpty then none
  else
    let rest := cs.drop ds.length
    let key := if rest.head? = some '+' then ds ++ [ '+' ] else ds
    let rest2 := if rest.head? = some '+' then rest.tail else rest
    match rest2 with
    | ':' :: r =>
      let v := r.dropWhile isPyWs
      if v.isEmpty || !v.all isValChar then none
      else some (String.mk key, String.mk v)
    | _ => none
where
  /-- The character class `[0-9eE+.-]` of the value group. -/
  isValChar (c : Char) : Bool :=
    c.isDigit || c = 'e' || c = 'E' || c = '+' || c = '.' || c = '-'

/-- One iteration of the loop body of `parse_hist` (plot_phase1.py
lines 39-47): tokens that do not match the regex, or whose value part does
not convert with `float`, are skipped; matches update the dict. -/
def parseHistStep (out : List (String × ℚ)) (p : List Char) : List (String × ℚ) :=
  match histTokenRe p with
  | none => out
  | some (k, v) =>
    match pyFloat? v with
    | none => out
    | some q => dictInsert out k q

/-- Embedding of `parse_hist` (plot_phase1.py lines 33-48): split the cell on
commas, strip the tokens, keep the ones matching the histogram mini-format
regex whose value parses as a float, and build an insertion-ordered dict. -/
def parse_hist (hist_str : String) : List (String × ℚ) :=
  if (pyStrip hist_str.data).isEmpty then []
  else
    let parts := ((pySplit hist_str.data ',').map pyStrip).filter (fun p => !p.isEmpty)
    parts.foldl parseHistStep []

/-- The six fixed buckets of `bucket_hist_simplified` (plot_phase1.py
lines 52-59): `Empty (0)`, `Single (1)`, `2-4`, `5-8`, `9-16`, `17+`. -/
structure Buckets where
  empty0 : ℚ
  single1 : ℚ
  b2_4 : ℚ
  b5_8 : ℚ
  b9_16 : ℚ
  b17p : ℚ
deriving DecidableEq, Repr

/-- The all-zero bucket table `bucket_hist_simplified` starts from. -/
def Buckets.zero : Buckets := ⟨0, 0, 0, 0, 0, 0⟩

/-- Model of Python `k.endswith("+")` for a dict key. -/
def endsPlus (k : String) : Bool :=
  match k.data.getLast? with
  | some c => c = '+'
  | none => false

/-- One iteration of the loop body of `bucket_hist_simplified`
(plot_phase1.py lines 61-81): overflow keys go to `17+`; otherwise the key
is converted with `int`, unparsable keys are skipped, and the integer is
routed to its bucket. -/
def bucketStep (b : Buckets) (kv : String × ℚ) : Buckets :=
  if endsPlus kv.1 then { b with b17p := b.b17p + kv.2 }
  else
    match pyInt? kv.1 with
    | none => b
    | some i =>
      if i = 0 then { b with empty0 := b.empty0 + kv.2 }
      else if i = 1 then { b with single1 := b.single1 + kv.2 }
      else if 2 ≤ i ∧ i ≤ 4 then { b with b2_4 := b.b2_4 + kv.2 }
      else if 5 ≤ i ∧ i ≤ 8 then { b with b5_8 := b.b5_8 + kv.2 }
      else if 9 ≤ i ∧ i ≤ 16 then { b with b9_16 := b.b9_16 + kv.2 }
      else { b with b17p := b.b17p + kv.2 }

/-- Embedding of `bucket_hist_simplified` (plot_phase1.py lines 51-82). -/
def bucket_hist_simplified (hist : List (String × ℚ)) : Buckets :=
  hist.foldl bucketStep Buckets.zero

/-- Sum of the six bucket counts of a `BucketedHistogram`. -/
def bucketSum (b : Buckets) : ℚ :=
  b.empty0 + b.single1 + b.b2_4 + b.b5_8 + b.b9_16 + b.b17p

/-- Sum of all counts of a `HistogramEntry` (the parsed histogram dict). -/
def histSum (h : List (String × ℚ)) : ℚ :=
  (h.map Prod.snd).sum

/-- A dict key the bucketizer does not skip: it either carries the overflow
marker or converts with Python `int`. -/
def goodKey (k : String) : Prop :=
  endsPlus k = true ∨ (pyInt? k).isSome = true

/-! ### scripts/plot_multicore.py — Per-Core Cell Decoder -/

/-- A pandas cell as seen by `parse_per_core_values` (plot_multicore.py
line 14): `None`, a numeric NaN, an ordinary number (int/float/np number,
modelled as an exact rational), or a string. -/
inductive PyCell where
  | pynone
  | pynan
  | pynum (q : ℚ)
  | pystr (s : String)

/-- The two-character escaped-newline marker `"\\n"`. -/
def backslashN : List Char := [ '\\', 'n' ]

/-- The two-character escaped-carriage-return marker `"\\r"`. -/
def backslashR : List Char := [ '\\', 'r' ]

/-- Model of the Python substring test `pat in cs`. -/
def containsSub : List Char → List Char → Bool
  | [], pat => pat.isEmpty
  | c :: rest, pat => pat.isPrefixOf (c :: rest) || containsSub rest pat

/-- Model of Python `cs.replace(pat, rep)` (leftmost, non-overlapping).
The degenerate empty pattern, which this pipeline never uses, is modelled
as the identity. -/
def pyReplace (cs pat rep : List Char) : List Char :=
  if pat.isEmpty then cs
  else
    match cs with
    | [] => []
    | c :: rest =>
      if pat.isPrefixOf (c :: rest) then rep ++ pyReplace ((c :: rest).drop pat.length) pat rep
      else c :: pyReplace rest pat rep
termination_by cs.length
decreasing_by
  · simp only [List.length_drop, List.length_cons]
    have hp : 0 < pat.length := by
      cases pat with
      | nil => simp at *
      | cons a l => simp
    omega
  · simp

/-- Model of Python `str.splitlines()` restricted to the `\n`, `\r` and
`\r\n` terminators (the only ones this pipeline can produce): accumulator
version. -/
def splitlinesAux : List Char → List Char → List (List Char)
  | [], acc => if acc.isEmpty then [] else [acc.reverse]
  | '\r' :: '\n' :: rest, acc => acc.reverse :: splitlinesAux rest []
  | '\r' :: rest, acc => acc.reverse :: splitlinesAux rest []
  | '\n' :: rest, acc => acc.reverse :: splitlinesAux rest []
  | c :: rest, acc => splitlinesAux rest (c :: acc)

/-- Model of Python `str.splitlines()`. -/
def splitlinesChars (cs : List Char) : List (List Char) :=
  splitlinesAux cs []

/-- The numeric tokens of one line of a per-core cell (plot_multicore.py
lines 27-33): split on commas, strip, drop empty tokens, keep the tokens
that parse as floats. -/
def lineVals (line : List Char) : List ℚ :=
  (((pySplit line ',').map pyStrip).filter (fun p => !p.isEmpty)).filterMap pyFloatCore

/-- Embedding of `parse_per_core_values` (plot_multicore.py lines 14-34). -/
def parse_per_core_values (cell : PyCell) : List ℚ :=
  match cell with
  | .pynone => []
  | .pynan => []
  | .pynum q => [q]
  | .pystr s =>
    let text := pyStrip s.data
    let text2 :=
      if containsSub text backslashN || containsSub text backslashR then
        pyReplace (pyReplace text backslashR [ '\r' ]) backslashN [ '\n' ]
      else text
    if text2.isEmpty then []
    else ((splitlinesChars text2).map lineVals).flatten

/-- Embedding of `per_core_mean` (plot_multicore.py lines 37-41): the
arithmetic mean of the parsed values, or `none` (modelling `np.nan`, the
missing sentinel) when no value parsed. -/
def per_core_mean (cell : PyCell) : Option ℚ :=
  let values := parse_per_core_values cell
  if values.isEmpty then none else some (values.sum / (values.length : ℚ))

/-- Modelled from the spec (§4.3): the flattened numeric token list of a
textual per-core cell — un-escape the newline markers, split into lines,
split each line on commas, trim, and keep the tokens that parse as floats.
Used as the specification side of claim C2. -/
def specFlatten (s : String) : List ℚ :=
  let t := pyReplace (pyReplace (pyStrip s.data) backslashR [ '\r' ]) backslashN [ '\n' ]
  ((splitlinesChars t).map lineVals).flatten

/-! ### scripts/plot_multicore.py — Tolerant Row Reconstructor -/

/-- Parser state of the comma/quote-aware tokenizer modelling Python
`csv.reader` with delimiter `,` and quotechar `"` on a single line. -/
inductive CsvSt where
  | startF
  | inF
  | inQ
  | afterQ

/-- The state machine of the single-line `csv.reader` model: `field` holds
the current field reversed, `out` the completed fields. -/
def csvAux : List Char → CsvSt → List Char → List String → List String
  | [], _, field, out => out ++ [String.mk field.reverse]
  | c :: rest, CsvSt.startF, field, out =>
    if c = '"' then csvAux rest CsvSt.inQ field out
    else if c = ',' then csvAux rest CsvSt.startF [] (out ++ [String.mk field.reverse])
    else csvAux rest CsvSt.inF (c :: field) out
  | c :: rest, CsvSt.inF, field, out =>
    if c = ',' then csvAux rest CsvSt.startF [] (out ++ [String.mk field.reverse])
    else csvAux rest CsvSt.inF (c :: field) out
  | c :: rest, CsvSt.inQ, field, out =>
    if c = '"' then csvAux rest CsvSt.afterQ field out
    else csvAux rest CsvSt.inQ (c :: field) out
  | c :: rest, CsvSt.afterQ, field, out =>
    if c = '"' then csvAux rest CsvSt.inQ (c :: field) out
    else if c = ',' then csvAux rest CsvSt.startF [] (out ++ [String.mk field.reverse])
    else csvAux rest CsvSt.inF (c :: field) out

/-- Model of `next(csv.reader([line], delimiter=",", quotechar='"'))`
(plot_multicore.py lines 51 and 69); a blank physical line yields the empty
row, as in Python. -/
def csvParse (line : String) : List String :=
  if line.data.isEmpty then [] else csvAux line.data CsvSt.startF [] []

/-- Model of the row-start heuristic `re.compile(r"^\d+,").match(line)`
(plot_multicore.py lines 55 and 60): after at least one digit, a comma. -/
def rowStartAux : List Char → Bool
  | [] => false
  | c :: rest => if c = ',' then true else if c.isDigit then rowStartAux rest else false

/-- A physical line that starts a new logical row: one or more digits
followed by a comma. -/
def rowStart (line : String) : Bool :=
  match line.data with
  | [] => false
  | c :: rest => c.isDigit && rowStartAux rest

/-- The buffering loop of `read_multicore_csv` (plot_multicore.py
lines 57-65): blank lines are skipped, row-start lines open a new buffer,
other lines are appended to the last buffer joined by the `"\\n"` marker,
and continuation lines before any row start are discarded.  The
accumulator holds the buffers in reverse. -/
def reconstructAux : List String → List String → List String
  | [], acc => acc.reverse
  | line :: rest, acc =>
    if line = "" then reconstructAux rest acc
    else if rowStart line then reconstructAux rest (line :: acc)
    else
      match acc with
      | [] => reconstructAux rest []
      | last :: prev => reconstructAux rest ((last ++ "\\n" ++ line) :: prev)

/-- The per-buffer finalization of `read_multicore_csv` (plot_multicore.py
lines 68-72): tokenize the buffered logical row and right-pad with empty
strings up to the header length.  Total: it never raises. -/
def finalizeRow (header_len : Nat) (row_text : String) : List String :=
  let row := csvParse row_text
  if row.length < header_len then row ++ List.replicate (header_len - row.length) "" else row

/-- Embedding of the reading/reconstruction part of `read_multicore_csv`
(plot_multicore.py lines 44-74), from the physical lines of the file to the
header and the reconstructed data rows; `none` models the
`ValueError("Empty CSV file")` raised on an empty file. -/
def read_multicore_csv (lines : List String) : Option (List String × List (List String)) :=
  match lines with
  | [] => none
  | first :: rest =>
    let header := csvParse first
    let row_lines := reconstructAux rest []
    some (header, row_lines.map (finalizeRow header.length))

/-! ### scripts/plot_bdev.py — Grouped Aggregator -/

/-- A typed record: a Python dict from column name to float, modelled as an
insertion-ordered association list. -/
abbrev Row := List (String × ℚ)

/-- Model of `tuple(row[k] for k in keys)` (plot_bdev.py line 32) with
`KeyError` modelled as `none`. -/
def keyTuple? (row : Row) : List String → Option (List ℚ)
  | [] => some []
  | k :: ks =>
    match dictGet row k, keyTuple? row ks with
    | some v, some t => some (v :: t)
    | _, _ => none

/-- The `try` block of `_group_mean` (plot_bdev.py lines 31-35): the
grouping tuple and the value-column float of one record, or `none` when a
column is missing, in which case the record is skipped. -/
def rowKeyVal (keys : List String) (value_key : String) (row : Row) :
    Option (List ℚ × ℚ) :=
  match keyTuple? row keys, dictGet row value_key with
  | some t, some v => some (t, v)
  | _, _ => none

/-- Model of `buckets.setdefault(key, []).append(val)` (plot_bdev.py
line 36) on an insertion-ordered dict of value lists. -/
def bucketsInsert : List (List ℚ × List ℚ) → List ℚ → ℚ → List (List ℚ × List ℚ)
  | [], t, v => [(t, [v])]
  | (t', vs) :: rest, t, v =>
    if t' = t then (t', vs ++ [v]) :: rest else (t', vs) :: bucketsInsert rest t v

/-- One iteration of the bucket-building loop of `_group_mean`
(plot_bdev.py lines 30-36). -/
def groupStep (keys : List String) (value_key : String)
    (bs : List (List ℚ × List ℚ)) (row : Row) : List (List ℚ × List ℚ) :=
  match rowKeyVal keys value_key row with
  | some (t, v) => bucketsInsert bs t v
  | none => bs

/-- Model of `sum(vals) / len(vals) if vals else 0.0` (plot_bdev.py
line 41). -/
def listMean (vs : List ℚ) : ℚ :=
  if vs.isEmpty then 0 else vs.sum / (vs.length : ℚ)

/-- The output record of one group (plot_bdev.py lines 40-42):
`out = {k: v for k, v in zip(keys, key)}` then `out[value_key] = mean`. -/
def mkOutRow (keys : List String) (value_key : String) (t : List ℚ) (vs : List ℚ) : Row :=
  dictInsert ((keys.zip t).foldl (fun d kv => dictInsert d kv.1 kv.2) [])
    value_key (listMean vs)

/-- Embedding of `_group_mean` (plot_bdev.py lines 28-43): group the
records by the tuple of grouping columns and emit, in Python dict insertion
order, one record per distinct tuple holding the mean of the value
column. -/
def _group_mean (rows : List Row) (keys : List String) (value_key : String) : List Row :=
  (rows.foldl (groupStep keys value_key) []).map
    (fun tv => mkOutRow keys value_key tv.1 tv.2)

/-- The contribution of one record to the value list of group tuple `t`
(specification side of C4/C8). -/
def rowContrib (keys : List String) (value_key : String) (t : List ℚ) (row : Row) :
    List ℚ :=
  match rowKeyVal keys value_key row with
  | some (t', v) => if t' = t then [v] else []
  | none => []

/-- All value-column entries of the records belonging to group tuple `t`,
in input order (specification side of C4/C8). -/
def matchVals (rows : List Row) (keys : List String) (value_key : String) (t : List ℚ) :
    List ℚ :=
  (rows.map (rowContrib keys value_key t)).flatten

/-- The distinct grouping tuples of the qualifying records in order of
first occurrence (Python dict insertion order): accumulator version. -/
def occTuplesAux (keys : List String) (value_key : String) :
    List Row → List (List ℚ) → List (List ℚ)
  | [], acc => acc
  | r :: rest, acc =>
    match rowKeyVal keys value_key r with
    | some (t, _) =>
      occTuplesAux keys value_key rest (if t ∈ acc then acc else acc ++ [t])
    | none => occTuplesAux keys value_key rest acc

/-- The distinct grouping tuples of the qualifying records in order of
first occurrence. -/
def occTuples (rows : List Row) (keys : List String) (value_key : String) :
    List (List ℚ) :=
  occTuplesAux keys value_key rows []

/-- Comparison of two optional key values; used to state the ascending
output ordering the spec asserts for the Grouped Aggregator. -/
def leOpt : Option ℚ → Option ℚ → Bool
  | some a, some b => a ≤ b
  | _, _ => true

/-- Whether a list of output records is sorted ascending by column `k`. -/
def orderedByKey : List Row → String → Bool
  | [], _ => true
  | [_], _ => true
  | r :: s :: rest, k => leOpt (dictGet r k) (dictGet s k) && orderedByKey (s :: rest) k

/-! ### scripts/plot_bdev.py — Time-Window Histogram Merger -/

/-- One row produced by `load_histograms` (plot_bdev.py lines 148-155): a
time-window sample tagged with IO size, queue depth and run id. -/
structure HistSample where
  io_size : ℚ
  queue_depth : ℚ
  run : ℚ
  start_us : ℚ
  end_us : ℚ
  count : ℚ
deriving DecidableEq, Repr

/-- The canonical midpoint `(row["start_us"] + row["end_us"]) / 2.0`
(plot_bdev.py line 173). -/
def midpointOf (r : HistSample) : ℚ := (r.start_us + r.end_us) / 2

/-- Model of `oc[mid] = oc.get(mid, 0.0) + count` on the insertion-ordered
dict of midpoint counts (plot_bdev.py line 174). -/
def accAdd : List (ℚ × ℚ) → ℚ → ℚ → List (ℚ × ℚ)
  | [], m, c => [(m, c)]
  | (m', c') :: rest, m, c =>
    if m' = m then (m', c' + c) :: rest else (m', c') :: accAdd rest m c

/-- Lookup in the midpoint-count dict. -/
def accGet : List (ℚ × ℚ) → ℚ → Option ℚ
  | [], _ => none
  | (m', c) :: rest, m => if m' = m then some c else accGet rest m

/-- The accumulation loop of `plot_histograms` building the overall
per-midpoint counts across all samples regardless of tag (plot_bdev.py
lines 169-174). -/
def overall_counts (rows : List HistSample) : List (ℚ × ℚ) :=
  rows.foldl (fun oc r => accAdd oc (midpointOf r) r.count) []

/-- Insertion into a sorted list of rationals. -/
def insertSorted (x : ℚ) : List ℚ → List ℚ
  | [] => [x]
  | y :: rest => if x ≤ y then x :: y :: rest else y :: insertSorted x rest

/-- Insertion sort modelling `sorted(overall_counts.keys())`
(plot_bdev.py line 181). -/
def sortQ (l : List ℚ) : List ℚ := l.foldr insertSorted []

/-- The overall percentage distribution of `plot_histograms`
(plot_bdev.py lines 179-182): the sorted midpoints, each paired with its
summed count as a percentage of the grand total (`sum(...) or 1.0`). -/
def overall_pct (rows : List HistSample) : List (ℚ × ℚ) :=
  let oc := overall_counts rows
  let total0 := (oc.map Prod.snd).sum
  let total := if total0 = 0 then 1 else total0
  (sortQ (oc.map Prod.fst)).map (fun m => (m, (accGet oc m).getD 0 / total * 100))

/-- The grand total count over all samples (specification side of C9). -/
def grandTotal (rows : List HistSample) : ℚ := (rows.map HistSample.count).sum

/-- The summed count of the samples sharing midpoint `m` (specification
side of C9). -/
def midCount (rows : List HistSample) (m : ℚ) : ℚ :=
  (rows.map (fun r => if midpointOf r = m then r.count else 0)).sum

/-! ### scripts/plot_bdev.py — Scalar Coercion in load_results -/

/-- The per-cell coercion of `load_results` (plot_bdev.py lines 125-128):
`out[name] = float(v) if v not in (None, "") else 0.0` under `try`, with
`ValueError`/`TypeError` giving `0.0`.  A total function: no error
propagates and record construction is never aborted. -/
def load_results_coerce (v : Option String) : ℚ :=
  match v with
  | none => 0
  | some s => if s = "" then 0 else (pyFloat? s).getD 0

/-- The column-rename dict of `load_results` (plot_bdev.py lines 101-114). -/
def rename_map : List (String × String) :=
  [("QD", "Queue Depth"), ("IO_Size", "IO Size (Bytes)"), ("IOPS", "IOPS"),
   ("p50_Latency", "p50 Latency (us)"), ("p99_Latency", "p99 Latency (us)"),
   ("p99.9_Latency", "p99.9 Latency (us)"), ("Cycles_Per_IO", "Cycles per IO"),
   ("Instr_Per_IO", "Instructions per IO"), ("LLC_Misses_Per_IO", "LLC Misses per IO"),
   ("Dram_Read_Bytes_Per_IO", "DRAM Read Bytes per IO"),
   ("Dram_Write_Bytes_Per_IO", "DRAM Write Bytes per IO"),
   ("Energy_Per_IO", "Energy per IO (J)")]

/-- String-to-string association lookup (for the rename dict). -/
def assocLookup : List (String × String) → String → Option String
  | [], _ => none
  | (k', v) :: rest, k => if k' = k then some v else assocLookup rest k

/-- One raw CSV record turned into a numeric record by the loop body of
`load_results` (plot_bdev.py lines 119-129): the histogram column is
dropped, names are renamed, every cell goes through the scalar coercion. -/
def load_results_row (raw : List (String × Option String)) : Row :=
  raw.foldl
    (fun out kv =>
      if kv.1 = "Completions_Per_Poll_Hist" then out
      else dictInsert out ((assocLookup rename_map kv.1).getD kv.1)
        (load_results_coerce kv.2))
    []

/-! ### Lemmas about the parsing helpers -/

lemma not_ws_of_isDigit (c : Char) (h : c.isDigit = true) : isPyWs c = false := by
  simp only [isPyWs, Bool.or_eq_false_iff, decide_eq_false_iff_not]
  refine ⟨⟨⟨⟨⟨?_, ?_⟩, ?_⟩, ?_⟩, ?_⟩, ?_⟩ <;>
    · rintro rfl
      exact absurd h (by decide)

lemma dropWhile_eq_self_of {p : Char → Bool} :
    ∀ (l : List Char), (∀ c ∈ l, p c = false) → l.dropWhile p = l
  | [], _ => rfl
  | c :: rest, h => by
    simp [List.dropWhile_cons, h c (List.mem_cons_self c rest)]

lemma pyStrip_eq_self (cs : List Char) (h : ∀ c ∈ cs, isPyWs c = false) :
    pyStrip cs = cs := by
  unfold pyStrip
  rw [dropWhile_eq_self_of cs h,
      dropWhile_eq_self_of cs.reverse (fun c hc => h c (List.mem_reverse.mp hc)),
      List.reverse_reverse]

lemma pyIntCore_digits (cs : List Char) (h1 : cs ≠ []) (h2 : ∀ c ∈ cs, c.isDigit = true) :
    pyIntCore cs = some (digitsVal cs : Int) := by
  have hstrip : pyStrip cs = cs :=
    pyStrip_eq_self cs (fun c hc => not_ws_of_isDigit c (h2 c hc))
  cases cs with
  | nil => exact absurd rfl h1
  | cons c rest =>
    have hc : c.isDigit = true := h2 c (List.mem_cons_self c rest)
    have hplus : ¬(c = '+') := by rintro rfl; exact absurd hc (by decide)
    have hminus : ¬(c = '-') := by rintro rfl; exact absurd hc (by decide)
    unfold pyIntCore
    rw [hstrip]
    simp only [if_neg hplus, if_neg hminus,
      if_pos (List.all_eq_true.mpr fun x hx => h2 x hx)]

lemma endsPlus_concat (ds : List Char) : endsPlus (String.mk (ds ++ [ '+' ])) = true := by
  unfold endsPlus
  rw [show (String.mk (ds ++ [ '+' ])).data = ds ++ [ '+' ] from rfl,
      List.getLast?_concat]
  simp

lemma histTokenRe_good (p : List Char) (k v : String)
    (h : histTokenRe p = some (k, v)) : goodKey k := by
  unfold histTokenRe at h
  by_cases hds : (p.takeWhile Char.isDigit).isEmpty
  · rw [if_pos hds] at h; exact absurd h (by simp)
  · rw [if_neg hds] at h
    simp only [] at h
    split at h
    case _ r heq =>
      split at h
      case isTrue => exact absurd h (by simp)
      case isFalse =>
        rw [Option.some_inj] at h
        have hk : k = String.mk (if (p.drop (p.takeWhile Char.isDigit).length).head? = some '+'
            then p.takeWhile Char.isDigit ++ [ '+' ] else p.takeWhile Char.isDigit) :=
          (congrArg Prod.fst h).symm
        by_cases hplus : (p.drop (p.takeWhile Char.isDigit).length).head? = some '+'
        · left
          rw [hk, if_pos hplus]
          exact endsPlus_concat _
        · right
          rw [hk, if_neg hplus]
          have hne : p.takeWhile Char.isDigit ≠ [] := by
            intro hcon; rw [hcon] at hds; exact hds rfl
          rw [show pyInt? (String.mk (p.takeWhile Char.isDigit)) =
              pyIntCore (p.takeWhile Char.isDigit) from rfl,
            pyIntCore_digits _ hne (fun c hc => List.mem_takeWhile_imp hc)]
          rfl
    case _ => exact absurd h (by simp)

lemma goodKey_dictInsert :
    ∀ (d : List (String × ℚ)) (k : String) (v : ℚ),
      (∀ x ∈ d, goodKey x.1) → goodKey k → ∀ x ∈ dictInsert d k v, goodKey x.1
  | [], k, v, _, hk => by
    intro x hx
    simp only [dictInsert, List.mem_singleton] at hx
    rw [hx]; exact hk
  | (k', v') :: rest, k, v, hd, hk => by
    intro x hx
    unfold dictInsert at hx
    by_cases hkk : k' = k
    · rw [if_pos hkk] at hx
      rcases List.mem_cons.mp hx with h | h
      · rw [h]; exact hd (k', v') (List.mem_cons_self ..)
      · exact hd x (List.mem_cons_of_mem _ h)
    · rw [if_neg hkk] at hx
      rcases List.mem_cons.mp hx with h | h
      · rw [h]; exact hd (k', v') (List.mem_cons_self ..)
      · exact goodKey_dictInsert rest k v (fun y hy => hd y (List.mem_cons_of_mem _ hy)) hk x h

lemma parseHistStep_good (out : List (String × ℚ)) (p : List Char)
    (h : ∀ x ∈ out, goodKey x.1) : ∀ x ∈ parseHistStep out p, goodKey x.1 := by
  unfold parseHistStep
  split
  case _ => exact h
  case _ k v heq =>
    split
    case _ => exact h
    case _ q _ => exact goodKey_dictInsert out k q h (histTokenRe_good p k v heq)

lemma foldl_parseHistStep_good :
    ∀ (parts : List (List Char)) (out : List (String × ℚ)),
      (∀ x ∈ out, goodKey x.1) → ∀ x ∈ parts.foldl parseHistStep out, goodKey x.1
  | [], out, h => h
  | p :: rest, out, h =>
    foldl_parseHistStep_good rest (parseHistStep out p) (parseHistStep_good out p h)

lemma parse_hist_good (s : String) : ∀ x ∈ parse_hist s, goodKey x.1 := by
  unfold parse_hist
  split
  · intro x hx; exact absurd hx (by simp)
  · exact foldl_parseHistStep_good _ [] (by intro x hx; exact absurd hx (by simp))

lemma bucketSum_step (b : Buckets) (kv : String × ℚ) (h : goodKey kv.1) :
    bucketSum (bucketStep b kv) = bucketSum b + kv.2 := by
  unfold bucketStep
  by_cases hp : endsPlus kv.1 = true
  · rw [if_pos hp]; simp [bucketSum]; ring
  · rw [if_neg hp]
    rcases h with h | h
    · exact absurd h hp
    · obtain ⟨i, hi⟩ := Option.isSome_iff_exists.mp h
      rw [hi]
      simp only []
      split_ifs <;> · simp [bucketSum]; ring

lemma bucketSum_foldl :
    ∀ (l : List (String × ℚ)) (b : Buckets), (∀ kv ∈ l, goodKey kv.1) →
      bucketSum (l.foldl bucketStep b) = bucketSum b + histSum l
  | [], b, _ => by simp [histSum]
  | kv :: rest, b, h => by
    rw [List.foldl_cons,
      bucketSum_foldl rest _ (fun x hx => h x (List.mem_cons_of_mem _ hx)),
      bucketSum_step b kv (h kv (List.mem_cons_self ..))]
    simp [histSum]
    ring

/-! ### Claim theorems for plot_phase1.py -/

/-- C1: for every histogram mapping produced by the Histogram Mini-Format
Parser (`parse_hist`), the sum of the six bucket counts returned by the
Histogram Bucketizer (`bucket_hist_simplified`) equals the sum of all counts
in the input mapping: bucketing neither loses nor creates counts for
successfully parsed entries. -/
theorem c1_bucket_conservation (s : String) :
    bucketSum (bucket_hist_simplified (parse_hist s)) = histSum (parse_hist s) := by
  unfold bucket_hist_simplified
  rw [bucketSum_foldl _ _ (parse_hist_good s)]
  simp [bucketSum, Buckets.zero]

unseal Rat.add Rat.mul Rat.inv Rat.sub Nat.gcd in
/-- C3: the Histogram Bucketizer maps every key of its input mapping as
follows: keys ending in the overflow marker `+` go to bucket `17+`; integer
key 0 to `Empty (0)`; key 1 to `Single (1)`; keys 2-4 to `2-4`; keys 5-8 to
`5-8`; keys 9-16 to `9-16`; every other integer key to `17+`; unparsable
keys are skipped.  Parsing `"0:50, 1:20, 3:5, 9:3, 40+:2"` and bucketizing
yields exactly `{Empty(0):50, Single(1):20, 2-4:5, 5-8:0, 9-16:3, 17+:2}`. -/
theorem c3_bucket_mapping_rule :
    (∀ (k : String) (v : ℚ), endsPlus k = true →
      bucket_hist_simplified [(k, v)] = ⟨0, 0, 0, 0, 0, v⟩) ∧
    (∀ (k : String) (v : ℚ), endsPlus k = false → pyInt? k = some 0 →
      bucket_hist_simplified [(k, v)] = ⟨v, 0, 0, 0, 0, 0⟩) ∧
    (∀ (k : String) (v : ℚ), endsPlus k = false → pyInt? k = some 1 →
      bucket_hist_simplified [(k, v)] = ⟨0, v, 0, 0, 0, 0⟩) ∧
    (∀ (k : String) (v : ℚ) (n : Int), endsPlus k = false → pyInt? k = some n →
      2 ≤ n → n ≤ 4 → bucket_hist_simplified [(k, v)] = ⟨0, 0, v, 0, 0, 0⟩) ∧
    (∀ (k : String) (v : ℚ) (n : Int), endsPlus k = false → pyInt? k = some n →
      5 ≤ n → n ≤ 8 → bucket_hist_simplified [(k, v)] = ⟨0, 0, 0, v, 0, 0⟩) ∧
    (∀ (k : String) (v : ℚ) (n : Int), endsPlus k = false → pyInt? k = some n →
      9 ≤ n → n ≤ 16 → bucket_hist_simplified [(k, v)] = ⟨0, 0, 0, 0, v, 0⟩) ∧
    (∀ (k : String) (v : ℚ) (n : Int), endsPlus k = false → pyInt? k = some n →
      ¬(n = 0) → ¬(n = 1) → ¬(2 ≤ n ∧ n ≤ 4) → ¬(5 ≤ n ∧ n ≤ 8) → ¬(9 ≤ n ∧ n ≤ 16) →
      bucket_hist_simplified [(k, v)] = ⟨0, 0, 0, 0, 0, v⟩) ∧
    (∀ (k : String) (v : ℚ), endsPlus k = false → pyInt? k = none →
      bucket_hist_simplified [(k, v)] = Buckets.zero) ∧
    bucket_hist_simplified (parse_hist "0:50, 1:20, 3:5, 9:3, 40+:2") =
      ⟨50, 20, 5, 0, 3, 2⟩ := by
  refine ⟨?_, ?_, ?_, ?_, ?_, ?_, ?_, ?_, ?_⟩
  · intro k v hp
    simp [bucket_hist_simplified, bucketStep, hp, Buckets.zero]
  · intro k v hp hi
    simp [bucket_hist_simplified, bucketStep, hp, hi, Buckets.zero]
  · intro k v hp hi
    simp [bucket_hist_simplified, bucketStep, hp, hi, Buckets.zero]
  · intro k v n hp hi h2 h4
    simp only [bucket_hist_simplified, List.foldl_cons, List.foldl_nil, bucketStep, hp,
      Bool.false_eq_true, if_false, hi]
    rw [if_neg (by omega), if_neg (by omega), if_pos ⟨h2, h4⟩]
    simp [Buckets.zero]
  · intro k v n hp hi h5 h8
    simp only [bucket_hist_simplified, List.foldl_cons, List.foldl_nil, bucketStep, hp,
      Bool.false_eq_true, if_false, hi]
    rw [if_neg (by omega), if_neg (by omega), if_neg (by omega), if_pos ⟨h5, h8⟩]
    simp [Buckets.zero]
  · intro k v n hp hi h9 h16
    simp only [bucket_hist_simplified, List.foldl_cons, List.foldl_nil, bucketStep, hp,
      Bool.false_eq_true, if_false, hi]
    rw [if_neg (by omega), if_neg (by omega), if_neg (by omega), if_neg (by omega),
      if_pos ⟨h9, h16⟩]
    simp [Buckets.zero]
  · intro k v n hp hi h0 h1 h24 h58 h916
    simp only [bucket_hist_simplified, List.foldl_cons, List.foldl_nil, bucketStep, hp,
      Bool.false_eq_true, if_false, hi]
    rw [if_neg h0, if_neg h1, if_neg h24, if_neg h58, if_neg h916]
    simp [Buckets.zero]
  · intro k v hp hi
    simp [bucket_hist_simplified, bucketStep, hp, hi]
  · decide

/-- C3 witness: concrete instances of the hypotheses of the mapping rule
(the key `"3"` is not an overflow key and converts to the integer 3, so its
count lands in bucket `2-4`; similarly `"40+"` is an overflow key). -/
theorem c3_bucket_mapping_rule_witness :
    bucket_hist_simplified [("3", (7 : ℚ))] = ⟨0, 0, 7, 0, 0, 0⟩ ∧
    bucket_hist_simplified [("40+", (2 : ℚ))] = ⟨0, 0, 0, 0, 0, 2⟩ :=
  ⟨c3_bucket_mapping_rule.2.2.2.1 "3" 7 3 (by decide) (by decide) (by decide) (by decide),
   c3_bucket_mapping_rule.1 "40+" 2 (by decide)⟩

/-! ### Lemmas and claim theorems for the Per-Core Cell Decoder -/

lemma pyReplace_nil (pat rep : List Char) : pyReplace [] pat rep = [] := by
  rw [pyReplace]
  split <;> rfl

lemma pyReplace_of_not_contains :
    ∀ (cs pat rep : List Char), containsSub cs pat = false → pyReplace cs pat rep = cs
  | [], pat, rep, _ => pyReplace_nil pat rep
  | c :: rest, pat, rep, h => by
    simp only [containsSub, Bool.or_eq_false_iff] at h
    have hpe : pat.isEmpty = false := by
      cases pat with
      | nil => simp [List.isPrefixOf] at h
      | cons a l => rfl
    rw [pyReplace, if_neg (by simp [hpe]), if_neg (by simp [h.1]),
      pyReplace_of_not_contains rest pat rep h.2]

lemma parse_pystr_eq_specFlatten (s : String) :
    parse_per_core_values (PyCell.pystr s) = specFlatten s := by
  simp only [parse_per_core_values, specFlatten]
  by_cases hc : (containsSub (pyStrip s.data) backslashN ||
      containsSub (pyStrip s.data) backslashR) = true
  · rw [if_pos hc]
    by_cases hte : (pyReplace (pyReplace (pyStrip s.data) backslashR [ '\r' ])
        backslashN [ '\n' ]).isEmpty
    · rw [if_pos hte, List.isEmpty_iff.mp hte]
      rfl
    · rw [if_neg hte]
  · have hc' := Bool.of_not_eq_true hc
    rw [if_neg hc]
    rcases Bool.or_eq_false_iff.mp hc' with ⟨h1, h2⟩
    rw [pyReplace_of_not_contains _ _ _ h2, pyReplace_of_not_contains _ _ _ h1]
    by_cases hte : (pyStrip s.data).isEmpty
    · rw [if_pos hte, List.isEmpty_iff.mp hte]
      rfl
    · rw [if_neg hte]

/-- C2: for every textual per-core cell, the Per-Core Cell Decoder's
aggregate equals the arithmetic mean of the flattened list of numeric
tokens (after un-escaping newline markers, splitting lines and commas, and
discarding unparsable tokens); when that flattened list is empty the
aggregate is the missing sentinel (`none`, modelling NaN), never zero. -/
theorem c2_per_core_mean_is_mean (s : String) :
    per_core_mean (PyCell.pystr s) =
      if (specFlatten s).isEmpty then none
      else some ((specFlatten s).sum / ((specFlatten s).length : ℚ)) := by
  simp only [per_core_mean, parse_pystr_eq_specFlatten]

/-- C10: a numeric NaN cell is decoded to the empty value list, so its
aggregate is the missing sentinel; every other already-numeric cell is
decoded to the singleton list holding that value, whose mean is the value
itself. -/
theorem c10_nan_cell_is_missing :
    parse_per_core_values PyCell.pynan = [] ∧
    per_core_mean PyCell.pynan = none ∧
    ∀ q : ℚ, parse_per_core_values (PyCell.pynum q) = [q] ∧
      per_core_mean (PyCell.pynum q) = some q := by
  refine ⟨rfl, rfl, fun q => ⟨rfl, ?_⟩⟩
  simp [per_core_mean, parse_per_core_values]

/-! ### Lemmas and claim theorems for the Tolerant Row Reconstructor -/

lemma rowStart_ne_empty {line : String} (h : rowStart line = true) : line ≠ "" := by
  intro he
  rw [he] at h
  exact absurd h (by decide)

lemma reconstructAux_all_rowStart :
    ∀ (ls : List String) (acc : List String),
      (∀ l ∈ ls, rowStart l = true) → reconstructAux ls acc = acc.reverse ++ ls
  | [], acc, _ => by simp [reconstructAux]
  | line :: rest, acc, h => by
    have hr : rowStart line = true := h line (List.mem_cons_self ..)
    rw [reconstructAux.eq_def]
    simp only []
    rw [if_neg (rowStart_ne_empty hr), if_pos hr,
      reconstructAux_all_rowStart rest (line :: acc)
        (fun l hl => h l (List.mem_cons_of_mem _ hl))]
    simp

/-- C5: row reconstruction is idempotent on well-formed input — for every
file whose data rows each occupy exactly one physical line, starting with
digits-then-comma and tokenizing to the header's column count, the rows
produced by `read_multicore_csv` equal a direct line-by-line comma/quote
aware parse of the data lines. -/
theorem c5_reconstruction_idempotent (first : String) (rest : List String)
    (h1 : ∀ l ∈ rest, rowStart l = true)
    (h2 : ∀ l ∈ rest, (csvParse l).length = (csvParse first).length) :
    read_multicore_csv (first :: rest) = some (csvParse first, rest.map csvParse) := by
  simp only [read_multicore_csv]
  rw [reconstructAux_all_rowStart rest [] h1]
  simp only [List.reverse_nil, List.nil_append]
  have hmap : rest.map (finalizeRow (csvParse first).length) = rest.map csvParse := by
    refine List.map_congr_left ?_
    intro l hl
    simp only [finalizeRow]
    rw [if_neg (by rw [h2 l hl]; omega)]
  rw [hmap]

/-- C5 witness: a concrete well-formed two-row file reconstructs to the
direct per-line parse. -/
theorem c5_reconstruction_idempotent_witness :
    read_multicore_csv ["ID,QD", "1,2", "2,4"] =
      some (["ID", "QD"], [["1", "2"], ["2", "4"]]) := by
  have h := c5_reconstruction_idempotent "ID,QD" ["1,2", "2,4"] (by decide) (by decide)
  rw [h]
  decide

/-- C6: for every buffered logical row whose tokenization yields fewer than
`header_len` tokens, the reconstructor right-pads the row with empty-string
tokens to exactly `header_len` tokens (and, being a total function, never
raises). -/
theorem c6_short_row_padding (header_len : Nat) (row_text : String)
    (h : (csvParse row_text).length < header_len) :
    finalizeRow header_len row_text =
      csvParse row_text ++ List.replicate (header_len - (csvParse row_text).length) "" ∧
    (finalizeRow header_len row_text).length = header_len := by
  constructor
  · simp only [finalizeRow]
    rw [if_pos h]
  · simp only [finalizeRow]
    rw [if_pos h]
    simp only [List.length_append, List.length_replicate]
    omega

/-- C6 witness: with a 5-column header, a row parsing to 3 tokens becomes a
5-token row whose last 2 tokens are empty strings. -/
theorem c6_short_row_padding_witness :
    finalizeRow 5 "1,2,3" = ["1", "2", "3", "", ""] ∧
    (finalizeRow 5 "1,2,3").length = 5 := by
  have h := c6_short_row_padding 5 "1,2,3" (by decide)
  exact ⟨h.1.trans (by decide), h.2⟩

/-! ### Claim theorem for Scalar Coercion -/

/-- C7: Scalar Coercion is total and never raises — empty or absent input
yields `0.0`, text that does not parse as a float yields `0.0`, numeric
text yields its float value.  `load_results_coerce` is a total Lean
function, so no error propagates and record construction
(`load_results_row`) is never aborted by a coercion failure. -/
theorem c7_scalar_coercion_total :
    load_results_coerce none = 0 ∧
    load_results_coerce (some "") = 0 ∧
    (∀ s : String, pyFloat? s = none → load_results_coerce (some s) = 0) ∧
    (∀ (s : String) (q : ℚ), pyFloat? s = some q → load_results_coerce (some s) = q) := by
  refine ⟨rfl, rfl, ?_, ?_⟩
  · intro s hs
    simp [load_results_coerce, hs]
  · intro s q hq
    have hne : s ≠ "" := by
      rintro rfl
      rw [show pyFloat? "" = none from rfl] at hq
      exact absurd hq (by simp)
    simp [load_results_coerce, hne, hq]

unseal Rat.add Rat.mul Rat.inv Rat.sub Nat.gcd in
/-- C7 witness: the unparsable cell `"abc"` coerces to zero and the numeric
cell `"2.5"` coerces to its value. -/
theorem c7_scalar_coercion_total_witness :
    load_results_coerce (some "abc") = 0 ∧ load_results_coerce (some "2.5") = 5 / 2 :=
  ⟨c7_scalar_coercion_total.2.2.1 "abc" (by decide),
   c7_scalar_coercion_total.2.2.2 "2.5" (5 / 2) (by decide)⟩

/-! ### Lemmas and claim theorem for the Time-Window Histogram Merger -/

lemma accGet_accAdd_self : ∀ (oc : List (ℚ × ℚ)) (m c : ℚ),
    accGet (accAdd oc m c) m = some ((accGet oc m).getD 0 + c)
  | [], m, c => by simp [accAdd, accGet]
  | (m', c') :: rest, m, c => by
    by_cases h : m' = m
    · subst h; simp [accAdd, accGet]
    · simp [accAdd, accGet, h, accGet_accAdd_self rest m c]

lemma accGet_accAdd_ne : ∀ (oc : List (ℚ × ℚ)) (m c m2 : ℚ), m2 ≠ m →
    accGet (accAdd oc m c) m2 = accGet oc m2
  | [], m, c, m2, h => by simp [accAdd, accGet, Ne.symm h]
  | (m', c') :: rest, m, c, m2, h => by
    by_cases hm : m' = m
    · subst hm; simp [accAdd, accGet, Ne.symm h]
    · by_cases hm2 : m' = m2
      · subst hm2; simp [accAdd, accGet, hm]
      · simp [accAdd, accGet, hm, hm2, accGet_accAdd_ne rest m c m2 h]

lemma sumVals_accAdd : ∀ (oc : List (ℚ × ℚ)) (m c : ℚ),
    ((accAdd oc m c).map Prod.snd).sum = (oc.map Prod.snd).sum + c
  | [], m, c => by simp [accAdd]
  | (m', c') :: rest, m, c => by
    by_cases h : m' = m
    · subst h; simp [accAdd]; ring
    · simp [accAdd, h, sumVals_accAdd rest m c]; ring

lemma accGet_foldl : ∀ (rows : List HistSample) (oc : List (ℚ × ℚ)) (m : ℚ),
    accGet (rows.foldl (fun oc r => accAdd oc (midpointOf r) r.count) oc) m =
      match accGet oc m with
      | some c => some (c + midCount rows m)
      | none =>
        if m ∈ rows.map midpointOf then some (midCount rows m) else none
  | [], oc, m => by
    cases h : accGet oc m <;> simp [midCount, h]
  | r :: rest, oc, m => by
    rw [List.foldl_cons, accGet_foldl rest (accAdd oc (midpointOf r) r.count) m]
    by_cases hm : midpointOf r = m
    · rw [hm, accGet_accAdd_self oc m r.count]
      cases h : accGet oc m with
      | some c =>
        simp only [h, Option.getD_some]
        have : midCount (r :: rest) m = r.count + midCount rest m := by
          simp [midCount, hm]
        rw [this]
        ring_nf
      | none =>
        simp only [h, Option.getD_none]
        have h1 : midCount (r :: rest) m = r.count + midCount rest m := by
          simp [midCount, hm]
        have h2 : m ∈ (r :: rest).map midpointOf := by simp [hm]
        rw [if_pos h2, h1]
        ring_nf
    · have hne : m ≠ midpointOf r := fun he => hm he.symm
      rw [accGet_accAdd_ne oc (midpointOf r) r.count m hne]
      have h1 : midCount (r :: rest) m = midCount rest m := by
        simp [midCount, hm]
      cases h : accGet oc m with
      | some c => rw [h1]
      | none =>
        have hiff : m ∈ (r :: rest).map midpointOf ↔ m ∈ rest.map midpointOf := by
          simp [List.mem_cons, hne]
        rw [h1]
        simp only [hiff]

lemma sumVals_foldl : ∀ (rows : List HistSample) (oc : List (ℚ × ℚ)),
    (((rows.foldl (fun oc r => accAdd oc (midpointOf r) r.count) oc)).map Prod.snd).sum =
      (oc.map Prod.snd).sum + grandTotal rows
  | [], oc => by simp [grandTotal]
  | r :: rest, oc => by
    rw [List.foldl_cons, sumVals_foldl rest _, sumVals_accAdd]
    simp [grandTotal]
    ring

lemma mem_insertSorted (x a : ℚ) : ∀ (l : List ℚ), a ∈ insertSorted x l ↔ a = x ∨ a ∈ l
  | [] => by simp [insertSorted]
  | y :: rest => by
    by_cases h : x ≤ y
    · simp [insertSorted, h]
    · simp [insertSorted, h, mem_insertSorted x a rest]
      tauto

lemma mem_sortQ (a : ℚ) : ∀ (l : List ℚ), a ∈ sortQ l ↔ a ∈ l
  | [] => by simp [sortQ]
  | x :: rest => by
    have hx : sortQ (x :: rest) = insertSorted x (sortQ rest) := rfl
    rw [hx, mem_insertSorted, mem_sortQ a rest]
    simp

lemma accGet_isSome_iff : ∀ (oc : List (ℚ × ℚ)) (m : ℚ),
    (accGet oc m).isSome = true ↔ m ∈ oc.map Prod.fst
  | [], m => by simp [accGet]
  | (m', c) :: rest, m => by
    by_cases h : m' = m
    · subst h; simp [accGet]
    · simp [accGet, h, accGet_isSome_iff rest m, Ne.symm h]

/-- C9: the Time-Window Histogram Merger's overall distribution assigns to
every distinct midpoint, across all samples regardless of tag, the summed
count of the samples sharing that midpoint as a percentage of the grand
total count. -/
theorem c9_overall_distribution (rows : List HistSample) (m : ℚ)
    (hT : grandTotal rows ≠ 0) (hm : m ∈ rows.map midpointOf) :
    (m, midCount rows m / grandTotal rows * 100) ∈ overall_pct rows := by
  have hget : accGet (overall_counts rows) m = some (midCount rows m) := by
    have h := accGet_foldl rows [] m
    rw [show accGet ([] : List (ℚ × ℚ)) m = none from rfl] at h
    simpa [hm] using h
  have htot : ((overall_counts rows).map Prod.snd).sum = grandTotal rows := by
    have h := sumVals_foldl rows []
    simpa using h
  have hmem : m ∈ sortQ ((overall_counts rows).map Prod.fst) := by
    rw [mem_sortQ, ← accGet_isSome_iff]
    simp [hget]
  simp only [overall_pct]
  rw [htot, if_neg hT]
  exact List.mem_map.mpr ⟨m, hmem, by rw [hget]; rfl⟩


unseal Rat.add Rat.mul Rat.inv Rat.sub Nat.gcd in
/-- C9 witness: two samples with different tags, both with midpoint 12.5
and counts 100 and 50, and no other samples, yield 100% for midpoint
12.5. -/
theorem c9_overall_distribution_witness :
    ((25 : ℚ) / 2, (100 : ℚ)) ∈
      overall_pct [⟨4096, 1, 1, 10, 15, 100⟩, ⟨4096, 2, 1, 10, 15, 50⟩] := by
  have h := c9_overall_distribution
    [⟨4096, 1, 1, 10, 15, 100⟩, ⟨4096, 2, 1, 10, 15, 50⟩] (25 / 2)
    (by decide) (by decide)
  rw [show midCount [⟨4096, 1, 1, 10, 15, 100⟩, ⟨4096, 2, 1, 10, 15, 50⟩] ((25 : ℚ) / 2) /
      grandTotal [⟨4096, 1, 1, 10, 15, 100⟩, ⟨4096, 2, 1, 10, 15, 50⟩] * 100 = 100
    from by decide] at h
  exact h

/-! ### Lemmas about dictionaries and grouping tuples -/

lemma dictGet_dictInsert_self : ∀ (d : Row) (k : String) (v : ℚ),
    dictGet (dictInsert d k v) k = some v
  | [], k, v => by simp [dictInsert, dictGet]
  | (k', v') :: rest, k, v => by
    by_cases h : k' = k
    · subst h; simp [dictInsert, dictGet]
    · simp [dictInsert, dictGet, h, dictGet_dictInsert_self rest k v]

lemma dictGet_dictInsert_ne : ∀ (d : Row) (k : String) (v : ℚ) (k2 : String), k2 ≠ k →
    dictGet (dictInsert d k v) k2 = dictGet d k2
  | [], k, v, k2, h => by simp [dictInsert, dictGet, Ne.symm h]
  | (k', v') :: rest, k, v, k2, h => by
    by_cases hk : k' = k
    · subst hk; simp [dictInsert, dictGet, Ne.symm h]
    · by_cases hk2 : k' = k2
      · subst hk2
        simp [dictInsert, dictGet, hk]
      · simp [dictInsert, dictGet, hk, hk2, dictGet_dictInsert_ne rest k v k2 h]

lemma dictGet_foldl_ne : ∀ (ps : List (String × ℚ)) (d : Row) (k : String),
    (∀ p ∈ ps, p.1 ≠ k) →
    dictGet (ps.foldl (fun d kv => dictInsert d kv.1 kv.2) d) k = dictGet d k
  | [], _, _, _ => rfl
  | p :: rest, d, k, h => by
    rw [List.foldl_cons,
      dictGet_foldl_ne rest _ k (fun q hq => h q (List.mem_cons_of_mem _ hq)),
      dictGet_dictInsert_ne d p.1 p.2 k (Ne.symm (h p (List.mem_cons_self ..)))]

lemma dictGet_foldl_mem : ∀ (ps : List (String × ℚ)) (ki : String) (ti : ℚ),
    (ki, ti) ∈ ps → (ps.map Prod.fst).Nodup →
    ∀ d : Row, dictGet (ps.foldl (fun d kv => dictInsert d kv.1 kv.2) d) ki = some ti
  | [], ki, ti, h, _, _ => absurd h (by simp)
  | p :: rest, ki, ti, h, hnd, d => by
    rw [List.foldl_cons]
    have hnd1 : p.1 ∉ rest.map Prod.fst := by
      rw [List.map_cons] at hnd
      exact (List.nodup_cons.mp hnd).1
    have hnd2 : (rest.map Prod.fst).Nodup := by
      rw [List.map_cons] at hnd
      exact (List.nodup_cons.mp hnd).2
    rcases List.mem_cons.mp h with h1 | h1
    · have hp1 : p.1 = ki := by rw [← h1]
      have hp2 : p.2 = ti := by rw [← h1]
      have hrest : ∀ q ∈ rest, q.1 ≠ ki := by
        intro q hq he
        refine hnd1 ?_
        rw [hp1, ← he]
        exact List.mem_map_of_mem Prod.fst hq
      rw [dictGet_foldl_ne rest _ ki hrest, hp1, hp2, dictGet_dictInsert_self]
    · exact dictGet_foldl_mem rest ki ti h1 hnd2 _

lemma keyTuple?_eq_some : ∀ (keys : List String) (t : List ℚ) (row : Row),
    keys.length = t.length → (∀ p ∈ keys.zip t, dictGet row p.1 = some p.2) →
    keyTuple? row keys = some t
  | [], [], _, _, _ => rfl
  | [], _ :: _, _, h, _ => by simp at h
  | _ :: _, [], _, h, _ => by simp at h
  | k :: ks, v :: ts, row, h, hget => by
    simp only [keyTuple?]
    rw [hget (k, v) (by simp [List.zip_cons_cons]),
      keyTuple?_eq_some ks ts row (by simpa using h)
        (fun p hp => hget p (by simp [List.zip_cons_cons, hp]))]

lemma keyTuple?_length : ∀ (keys : List String) (row : Row) (t : List ℚ),
    keyTuple? row keys = some t → t.length = keys.length
  | [], _, t, h => by
    simp only [keyTuple?, Option.some_inj] at h
    simp [← h]
  | k :: ks, row, t, h => by
    simp only [keyTuple?] at h
    cases hv : dictGet row k with
    | none => rw [hv] at h; exact absurd h (by simp)
    | some v =>
      cases ht : keyTuple? row ks with
      | none => rw [hv, ht] at h; exact absurd h (by simp)
      | some t' =>
        rw [hv, ht, Option.some_inj] at h
        rw [← h]
        simp [keyTuple?_length ks row t' ht]

lemma mkOutRow_get_value (keys : List String) (vk : String) (t : List ℚ) (vs : List ℚ) :
    dictGet (mkOutRow keys vk t vs) vk = some (listMean vs) :=
  dictGet_dictInsert_self _ vk _

lemma mkOutRow_keyTuple (keys : List String) (vk : String) (t : List ℚ) (vs : List ℚ)
    (hnd : keys.Nodup) (hvk : vk ∉ keys) (hlen : keys.length = t.length) :
    keyTuple? (mkOutRow keys vk t vs) keys = some t := by
  refine keyTuple?_eq_some keys t _ hlen ?_
  intro p hp
  obtain ⟨pk, pv⟩ := p
  have hpk : pk ∈ keys := (List.of_mem_zip hp).1
  have hne : pk ≠ vk := fun he => hvk (he ▸ hpk)
  unfold mkOutRow
  rw [dictGet_dictInsert_ne _ vk _ pk hne]
  refine dictGet_foldl_mem (keys.zip t) pk pv hp ?_ []
  rw [List.map_fst_zip keys t (le_of_eq hlen)]
  exact hnd

lemma rowKeyVal_eq_some_iff (keys : List String) (vk : String) (row : Row)
    (t : List ℚ) (v : ℚ) :
    rowKeyVal keys vk row = some (t, v) ↔
      keyTuple? row keys = some t ∧ dictGet row vk = some v := by
  unfold rowKeyVal
  cases h1 : keyTuple? row keys <;> cases h2 : dictGet row vk <;> simp

lemma matchVals_cons (r : Row) (rows : List Row) (keys : List String) (vk : String)
    (t : List ℚ) :
    matchVals (r :: rows) keys vk t = rowContrib keys vk t r ++ matchVals rows keys vk t := by
  simp [matchVals]

lemma matchVals_append (l1 l2 : List Row) (keys : List String) (vk : String) (t : List ℚ) :
    matchVals (l1 ++ l2) keys vk t = matchVals l1 keys vk t ++ matchVals l2 keys vk t := by
  simp [matchVals]

lemma matchVals_eq_nil : ∀ (rows : List Row) (keys : List String) (vk : String) (t : List ℚ),
    (∀ r ∈ rows, ∀ v, rowKeyVal keys vk r ≠ some (t, v)) → matchVals rows keys vk t = []
  | [], _, _, _, _ => rfl
  | r :: rest, keys, vk, t, h => by
    rw [matchVals_cons,
      matchVals_eq_nil rest keys vk t (fun q hq => h q (List.mem_cons_of_mem _ hq)),
      List.append_nil]
    unfold rowContrib
    cases hr : rowKeyVal keys vk r with
    | none => rfl
    | some tv =>
      obtain ⟨t', v⟩ := tv
      have hne : t' ≠ t := fun he => h r (List.mem_cons_self ..) v (by rw [hr, he])
      simp [hne]

lemma mem_occTuplesAux_mono (keys : List String) (vk : String) :
    ∀ (rows : List Row) (acc : List (List ℚ)) (t : List ℚ),
      t ∈ acc → t ∈ occTuplesAux keys vk rows acc
  | [], _, _, ht => ht
  | r :: rest, acc, t, ht => by
    cases hr : rowKeyVal keys vk r with
    | none =>
      simp only [occTuplesAux, hr]
      exact mem_occTuplesAux_mono keys vk rest acc t ht
    | some tv =>
      obtain ⟨t0, v0⟩ := tv
      simp only [occTuplesAux, hr]
      refine mem_occTuplesAux_mono keys vk rest _ t ?_
      by_cases hm : t0 ∈ acc
      · rw [if_pos hm]; exact ht
      · rw [if_neg hm]; exact List.mem_append_left _ ht

lemma occTuplesAux_complete (keys : List String) (vk : String) :
    ∀ (rows : List Row) (acc : List (List ℚ)) (t : List ℚ) (v : ℚ) (r : Row),
      r ∈ rows → rowKeyVal keys vk r = some (t, v) → t ∈ occTuplesAux keys vk rows acc
  | [], _, _, _, _, hr, _ => absurd hr (by simp)
  | r' :: rest, acc, t, v, r, hr, hkv => by
    rcases List.mem_cons.mp hr with h1 | h1
    · subst h1
      simp only [occTuplesAux, hkv]
      refine mem_occTuplesAux_mono keys vk rest _ t ?_
      by_cases hm : t ∈ acc
      · rw [if_pos hm]; exact hm
      · rw [if_neg hm]; exact List.mem_append_right _ (by simp)
    · cases hr' : rowKeyVal keys vk r' with
      | none =>
        simp only [occTuplesAux, hr']
        exact occTuplesAux_complete keys vk rest acc t v r h1 hkv
      | some tv =>
        obtain ⟨t0, v0⟩ := tv
        simp only [occTuplesAux, hr']
        exact occTuplesAux_complete keys vk rest _ t v r h1 hkv

lemma occTuplesAux_sound (keys : List String) (vk : String) :
    ∀ (rows : List Row) (acc : List (List ℚ)) (t : List ℚ),
      t ∈ occTuplesAux keys vk rows acc →
      t ∈ acc ∨ ∃ r ∈ rows, ∃ v, rowKeyVal keys vk r = some (t, v)
  | [], _, _, ht => Or.inl ht
  | r :: rest, acc, t, ht => by
    cases hr : rowKeyVal keys vk r with
    | none =>
      rw [occTuplesAux.eq_def] at ht
      simp only [hr] at ht
      rcases occTuplesAux_sound keys vk rest acc t ht with h | ⟨q, hq, v, hv⟩
      · exact Or.inl h
      · exact Or.inr ⟨q, List.mem_cons_of_mem _ hq, v, hv⟩
    | some tv =>
      obtain ⟨t0, v0⟩ := tv
      rw [occTuplesAux.eq_def] at ht
      simp only [hr] at ht
      rcases occTuplesAux_sound keys vk rest _ t ht with h | ⟨q, hq, v, hv⟩
      · by_cases hm : t0 ∈ acc
        · rw [if_pos hm] at h; exact Or.inl h
        · rw [if_neg hm] at h
          rcases List.mem_append.mp h with h2 | h2
          · exact Or.inl h2
          · have : t = t0 := by simpa using h2
            exact Or.inr ⟨r, List.mem_cons_self .., v0, by rw [hr, this]⟩
      · exact Or.inr ⟨q, List.mem_cons_of_mem _ hq, v, hv⟩

lemma occTuplesAux_nodup (keys : List String) (vk : String) :
    ∀ (rows : List Row) (acc : List (List ℚ)), acc.Nodup →
      (occTuplesAux keys vk rows acc).Nodup
  | [], _, h => h
  | r :: rest, acc, h => by
    cases hr : rowKeyVal keys vk r with
    | none =>
      simp only [occTuplesAux, hr]
      exact occTuplesAux_nodup keys vk rest acc h
    | some tv =>
      obtain ⟨t0, v0⟩ := tv
      simp only [occTuplesAux, hr]
      refine occTuplesAux_nodup keys vk rest _ ?_
      by_cases hm : t0 ∈ acc
      · rw [if_pos hm]; exact h
      · rw [if_neg hm]; simp [List.nodup_append, h, hm]

lemma occTuplesAux_append (keys : List String) (vk : String) :
    ∀ (l1 l2 : List Row) (acc : List (List ℚ)),
      occTuplesAux keys vk (l1 ++ l2) acc =
        occTuplesAux keys vk l2 (occTuplesAux keys vk l1 acc)
  | [], _, _ => rfl
  | r :: rest, l2, acc => by
    cases hr : rowKeyVal keys vk r with
    | none =>
      rw [List.cons_append, occTuplesAux.eq_def]
      simp only [hr]
      rw [occTuplesAux_append keys vk rest l2 acc,
        show occTuplesAux keys vk (r :: rest) acc = occTuplesAux keys vk rest acc from by
          rw [occTuplesAux.eq_def]; simp only [hr]]
    | some tv =>
      obtain ⟨t0, v0⟩ := tv
      rw [List.cons_append, occTuplesAux.eq_def]
      simp only [hr]
      rw [occTuplesAux_append keys vk rest l2 _,
        show occTuplesAux keys vk (r :: rest) acc =
          occTuplesAux keys vk rest (if t0 ∈ acc then acc else acc ++ [t0]) from by
            rw [occTuplesAux.eq_def]; simp only [hr]]

lemma bucketsInsert_map_mem (f : List ℚ → List ℚ) (v : ℚ) :
    ∀ (occ : List (List ℚ)) (t0 : List ℚ), occ.Nodup → t0 ∈ occ →
      bucketsInsert (occ.map (fun t => (t, f t))) t0 v =
        occ.map (fun t => (t, f t ++ if t0 = t then [v] else []))
  | [], _, _, h => absurd h (by simp)
  | t' :: occ, t0, hnd, h => by
    simp only [List.map_cons, bucketsInsert]
    by_cases he : t' = t0
    · subst he
      rw [if_pos rfl, if_pos rfl]
      congr 1
      refine (List.map_congr_left ?_).symm
      intro t ht
      have hne : t' ≠ t := fun he2 => (List.nodup_cons.mp hnd).1 (he2 ▸ ht)
      rw [if_neg hne, List.append_nil]
    · rw [if_neg he]
      have h0 : t0 ∈ occ := by
        rcases List.mem_cons.mp h with h1 | h1
        · exact absurd h1.symm he
        · exact h1
      rw [bucketsInsert_map_mem f v occ t0 (List.nodup_cons.mp hnd).2 h0,
        if_neg (fun he2 => he he2.symm), List.append_nil]

lemma bucketsInsert_map_not_mem (f : List ℚ → List ℚ) (v : ℚ) :
    ∀ (occ : List (List ℚ)) (t0 : List ℚ), t0 ∉ occ →
      bucketsInsert (occ.map (fun t => (t, f t))) t0 v =
        occ.map (fun t => (t, f t)) ++ [(t0, [v])]
  | [], _, _ => rfl
  | t' :: occ, t0, h => by
    have h1 : t' ≠ t0 := fun he => h (he ▸ List.mem_cons_self ..)
    simp only [List.map_cons, bucketsInsert, if_neg h1]
    rw [bucketsInsert_map_not_mem f v occ t0 (fun hm => h (List.mem_cons_of_mem _ hm))]
    rfl

lemma groupBuckets_eq (keys : List String) (vk : String) (rows : List Row) :
    rows.foldl (groupStep keys vk) [] =
      (occTuples rows keys vk).map (fun t => (t, matchVals rows keys vk t)) := by
  induction rows using List.reverseRecOn with
  | nil => rfl
  | append_singleton rs r ih =>
    rw [List.foldl_append, List.foldl_cons, List.foldl_nil, ih]
    cases hr : rowKeyVal keys vk r with
    | none =>
      simp only [groupStep, hr]
      have hocc : occTuples (rs ++ [r]) keys vk = occTuples rs keys vk := by
        unfold occTuples
        rw [occTuplesAux_append]
        rw [occTuplesAux.eq_def]
        simp only [hr]
        rfl
      rw [hocc]
      refine List.map_congr_left ?_
      intro t _
      rw [matchVals_append]
      simp [matchVals, rowContrib, hr]
    | some tv =>
      obtain ⟨t0, v⟩ := tv
      simp only [groupStep, hr]
      have hocc : occTuples (rs ++ [r]) keys vk =
          (if t0 ∈ occTuples rs keys vk then occTuples rs keys vk
           else occTuples rs keys vk ++ [t0]) := by
        unfold occTuples
        rw [occTuplesAux_append]
        rw [occTuplesAux.eq_def]
        simp only [hr]
        rfl
      have hnodup : (occTuples rs keys vk).Nodup :=
        occTuplesAux_nodup keys vk rs [] List.nodup_nil
      by_cases hmem : t0 ∈ occTuples rs keys vk
      · rw [hocc, if_pos hmem, bucketsInsert_map_mem _ v _ t0 hnodup hmem]
        refine List.map_congr_left ?_
        intro t _
        rw [matchVals_append]
        simp [matchVals, rowContrib, hr]
      · rw [hocc, if_neg hmem, bucketsInsert_map_not_mem _ v _ t0 hmem, List.map_append]
        congr 1
        · refine List.map_congr_left ?_
          intro t ht
          rw [matchVals_append]
          have hne : t0 ≠ t := fun he => hmem (he ▸ ht)
          simp [matchVals, rowContrib, hr, hne]
        · have hnil : matchVals rs keys vk t0 = [] := by
            refine matchVals_eq_nil rs keys vk t0 ?_
            intro q hq v' hqv
            exact hmem (occTuplesAux_complete keys vk rs [] t0 v' q hq hqv)
          simp only [List.map_cons, List.map_nil]
          rw [matchVals_append, hnil]
          simp [matchVals, rowContrib, hr]

/-- The full input/output characterization of `_group_mean`: its output,
projected to (grouping tuple, mean value), is exactly the list of distinct
qualifying tuples in order of first occurrence, each with the mean of all
matching records' values. -/
lemma group_mean_pairs (rows : List Row) (keys : List String) (vk : String)
    (hnd : keys.Nodup) (hvk : vk ∉ keys) :
    (_group_mean rows keys vk).map (fun e => (keyTuple? e keys, dictGet e vk)) =
      (occTuples rows keys vk).map
        (fun t => (some t, some (listMean (matchVals rows keys vk t)))) := by
  unfold _group_mean
  rw [groupBuckets_eq, List.map_map, List.map_map]
  refine List.map_congr_left ?_
  intro t ht
  have hlen : keys.length = t.length := by
    rcases occTuplesAux_sound keys vk rows [] t ht with h | ⟨r, _, v, hkv⟩
    · exact absurd h (by simp)
    · exact (keyTuple?_length keys r t ((rowKeyVal_eq_some_iff keys vk r t v).mp hkv).1).symm
  simp only [Function.comp]
  rw [mkOutRow_keyTuple keys vk t _ hnd hvk hlen, mkOutRow_get_value]

unseal Rat.add Rat.mul Rat.inv Rat.sub Nat.gcd in
/-- C4 (amended): the Grouped Aggregator emits one entry per distinct
grouping-key tuple, holding the arithmetic mean of the value column over
the records sharing that tuple, in order of FIRST OCCURRENCE of the tuple
in the input (Python dict insertion order) — not sorted ascending; the
concrete scenario {(qd=1,val=10),(qd=1,val=20),(qd=2,val=5)} grouped by qd
over val yields {qd=1: 15.0, qd=2: 5.0}, which is ascending only because
the input happens to present the tuples in ascending order. -/
theorem c4_group_mean_insertion_order :
    (∀ (rows : List Row) (keys : List String) (vk : String), keys.Nodup → vk ∉ keys →
      (_group_mean rows keys vk).map (fun e => (keyTuple? e keys, dictGet e vk)) =
        (occTuples rows keys vk).map
          (fun t => (some t, some (listMean (matchVals rows keys vk t))))) ∧
    _group_mean [[("qd", 1), ("val", 10)], [("qd", 1), ("val", 20)], [("qd", 2), ("val", 5)]]
        ["qd"] "val" =
      [[("qd", 1), ("val", 15)], [("qd", 2), ("val", 5)]] :=
  ⟨fun rows keys vk hnd hvk => group_mean_pairs rows keys vk hnd hvk, by decide⟩

/-- C4 witness: the general characterization instantiated at a concrete
two-record input. -/
theorem c4_group_mean_insertion_order_witness :
    (_group_mean [[("qd", 1), ("val", 10)], [("qd", 2), ("val", 5)]] ["qd"] "val").map
        (fun e => (keyTuple? e ["qd"], dictGet e "val")) =
      (occTuples [[("qd", 1), ("val", 10)], [("qd", 2), ("val", 5)]] ["qd"] "val").map
        (fun t => (some t, some (listMean
          (matchVals [[("qd", 1), ("val", 10)], [("qd", 2), ("val", 5)]] ["qd"] "val" t)))) :=
  c4_group_mean_insertion_order.1
    [[("qd", 1), ("val", 10)], [("qd", 2), ("val", 5)]] ["qd"] "val"
    (by decide) (by decide)

unseal Rat.add Rat.mul Rat.inv Rat.sub Nat.gcd in
/-- C4 counterexample: as stated, the claim that `_group_mean` output is
ordered by ascending key tuple is FALSE — presenting qd=2 before qd=1 in
the input yields output entries in that same (descending) insertion
order. -/
theorem c4_group_mean_counterexample :
    _group_mean [[("qd", 2), ("val", 5)], [("qd", 1), ("val", 10)]] ["qd"] "val" =
      [[("qd", 2), ("val", 5)], [("qd", 1), ("val", 10)]] ∧
    orderedByKey (_group_mean [[("qd", 2), ("val", 5)], [("qd", 1), ("val", 10)]]
      ["qd"] "val") "qd" = false := by
  constructor <;> decide

/-- C8: the Grouped Aggregator performs no filtering — every record
possessing all grouping columns and the value column contributes its value
(including a sentinel/zero-coerced value) to its group's list, and the
output holds for that group's tuple the mean over ALL matching records.
Determinism is inherent: the embedding is a pure function of its inputs. -/
theorem c8_no_filtering (rows : List Row) (keys : List String) (vk : String)
    (r : Row) (t : List ℚ) (v : ℚ)
    (hnd : keys.Nodup) (hvk : vk ∉ keys) (hr : r ∈ rows)
    (hkv : rowKeyVal keys vk r = some (t, v)) :
    v ∈ matchVals rows keys vk t ∧
    (some t, some (listMean (matchVals rows keys vk t))) ∈
      (_group_mean rows keys vk).map (fun e => (keyTuple? e keys, dictGet e vk)) := by
  constructor
  · unfold matchVals
    refine List.mem_flatten.mpr ⟨rowContrib keys vk t r, List.mem_map_of_mem _ hr, ?_⟩
    simp [rowContrib, hkv]
  · rw [group_mean_pairs rows keys vk hnd hvk]
    exact List.mem_map.mpr ⟨t, occTuplesAux_complete keys vk rows [] t v r hr hkv, rfl⟩

unseal Rat.add Rat.mul Rat.inv Rat.sub Nat.gcd in
/-- C8 witness: a record whose value was coerced to zero still contributes
to its group's mean — mean of {0, 10} is 5, not 10. -/
theorem c8_no_filtering_witness :
    (0 : ℚ) ∈ matchVals [[("qd", 1), ("val", 0)], [("qd", 1), ("val", 10)]]
      ["qd"] "val" [1] ∧
    (some [(1 : ℚ)], some (5 : ℚ)) ∈
      (_group_mean [[("qd", 1), ("val", 0)], [("qd", 1), ("val", 10)]] ["qd"] "val").map
        (fun e => (keyTuple? e ["qd"], dictGet e "val")) := by
  have h := c8_no_filtering [[("qd", 1), ("val", 0)], [("qd", 1), ("val", 10)]]
    ["qd"] "val" [("qd", 1), ("val", 0)] [1] 0
    (by decide) (by decide) (by decide) (by decide)
  refine ⟨h.1, ?_⟩
  have h2 := h.2
  rw [show listMean (matchVals [[("qd", 1), ("val", 0)], [("qd", 1), ("val", 10)]]
      ["qd"] "val" [1]) = 5 from by decide] at h2
  exact h2

end Gem5Spdk
